import Mathlib

/-!
Shallow embedding of `talib/abstract.pyx` (the abstract invocation layer of
ta-lib-python): the `Function` facade, its mutation operations, the argument
assembly of `__call_function`, the `outputs` property, the `lookback`
property, the flag decoder `__get_flags`, and the slot-name normalization
performed by `_ta_getInputParameterInfo` / `_ta_getOutputParameterInfo`.

Python values that flow through the facade (input-array dict entries,
optional-parameter values, price-series bindings) are modelled by `PyVal`.
Numeric arrays are modelled as `List Int`: no claim inspects array contents.
Python `OrderedDict`s are modelled as insertion-ordered association lists.
-/

namespace TalibAbstract

set_option autoImplicit false

/-- The Python values stored and passed around by `Function`:
`None`, numbers, strings, lists of series-name strings, numeric arrays
(ndarrays) and dicts keyed by strings. -/
inductive PyVal where
  | none : PyVal
  | int : Int → PyVal
  | str : String → PyVal
  | strList : List String → PyVal
  | arr : List Int → PyVal
  | dict : List (String × PyVal) → PyVal

instance : Inhabited PyVal := ⟨PyVal.none⟩

/-- Python truthiness (`if not value`) for the values above: `None`, `0`,
and empty containers are falsy.  (A multi-element numpy array would raise in
Python; no code path modelled here evaluates the truthiness of an array.) -/
def PyVal.truthy : PyVal → Bool
  | .none => false
  | .int n => decide (n ≠ 0)
  | .str s => !s.isEmpty
  | .strList l => !l.isEmpty
  | .arr a => !a.isEmpty
  | .dict d => !d.isEmpty

/-- Python dict lookup on an association list (`d[key]`); `Option.none`
models a `KeyError`. -/
def dictGet {κ α : Type} [DecidableEq κ] : List (κ × α) → κ → Option α
  | [], _ => Option.none
  | (k, v) :: rest, key => if k = key then some v else dictGet rest key

/-- Lookup of `self.__input_arrays[price_series]` where the key is whatever
Python value is bound as the price series: only string keys can match the
five string keys of the input-array dict; any other key is a `KeyError`. -/
def dictGetPy (d : List (String × PyVal)) : PyVal → Option PyVal
  | .str s => dictGet d s
  | _ => Option.none

/-- The `TA_OptInput_*` value-kind tags of the native header. -/
inductive OptInputType where
  | realRange : OptInputType
  | realList : OptInputType
  | integerRange : OptInputType
  | integerList : OptInputType
deriving DecidableEq, BEq

/-- One entry of `self.__opt_inputs`: the info dict built by
`_ta_getOptInputParameterInfo` (name, type, default_value) plus the mutable
`value` field (initially `None`). -/
structure OptInputSlot where
  name : String
  type : OptInputType
  defaultValue : PyVal
  value : PyVal

/-- One entry of `self.__input_names`: slot name plus the mutable
`price_series` binding (a TALIB-supplied list of series names, or a single
name from `__input_price_series_defaults`, or `None` for `periods`). -/
structure InputSlot where
  name : String
  priceSeries : PyVal

/-- The mutable state of one `Function` facade. The three ordered
dictionaries keep discovery (declaration) order; `outputs` maps each output
name to its last computed array (initially `None`). -/
structure Facade where
  funcName : String
  inputNames : List InputSlot
  optInputs : List OptInputSlot
  outputs : List (String × PyVal)
  inputArrays : List (String × PyVal)
  outputsValid : Bool

/-- `Function.__get_opt_input_value`: the stored override if it is truthy,
otherwise the declared default (`value = ...['value']; if not value: value =
...['default_value']`). -/
def getOptInputValue (opt : OptInputSlot) : PyVal :=
  let value := opt.value
  if value.truthy then value else opt.defaultValue

/-- Lexicographic code-point comparison of character lists: how Python
compares strings. -/
def charListLe : List Char → List Char → Bool
  | [], _ => true
  | _ :: _, [] => false
  | a :: as, b :: bs => if a = b then charListLe as bs else decide (a.toNat < b.toNat)

/-- `a <= b` on strings by code points (Python string ordering). -/
def strLe (a b : String) : Bool :=
  charListLe a.toList b.toList

/-- Insert into a sorted list of strings. -/
def insertSorted (s : String) : List String → List String
  | [] => [s]
  | t :: ts => if strLe s t then s :: t :: ts else t :: insertSorted s ts

/-- Ascending sort of strings (Python `sorted`). -/
def sortStrings : List String → List String
  | [] => []
  | k :: ks => insertSorted k (sortStrings ks)

/-- `sorted(input_arrays.keys())` of `Function.set_input_arrays`. -/
def sortedKeys (d : List (String × PyVal)) : List String :=
  sortStrings (d.map Prod.fst)

/-- `Function.set_input_arrays`: accept exactly a dict whose sorted key list
is `['close', 'high', 'low', 'open', 'volume']`; on success replace the
stored arrays and clear the valid flag and return `True`, otherwise return
`False` leaving the facade untouched. -/
def set_input_arrays (f : Facade) (x : PyVal) : Facade × Bool :=
  match x with
  | .dict d =>
    if sortedKeys d = ["close", "high", "low", "open", "volume"] then
      ({ f with inputArrays := d, outputsValid := false }, true)
    else
      (f, false)
  | _ => (f, false)

/-- `self.__opt_inputs[param]['value'] = value`: in-place update of the slot
named `param`; `Option.none` models the `KeyError` raised when no slot has
that name. -/
def setOptValue : List OptInputSlot → String → PyVal → Option (List OptInputSlot)
  | [], _, _ => Option.none
  | s :: rest, k, v =>
    if s.name = k then some ({ s with value := v } :: rest)
    else (setOptValue rest k v).map (s :: ·)

/-- The `for param, value in parameters.items()` loop of
`Function.set_parameters`: applies assignments left to right; on a
`KeyError` it stops, returning the partially mutated slots and the offending
key. -/
def setParamsLoop : List OptInputSlot → List (String × PyVal) → List OptInputSlot × Option String
  | slots, [] => (slots, Option.none)
  | slots, (k, v) :: rest =>
    match setOptValue slots k v with
    | some slots2 => setParamsLoop slots2 rest
    | Option.none => (slots, some k)

/-- `Function.set_parameters`: run the assignment loop; only when it
completes without `KeyError` is `self.__outputs_valid = False` reached.  The
second component is the key carried by the `KeyError`, if one was raised. -/
def set_parameters (f : Facade) (ps : List (String × PyVal)) : Facade × Option String :=
  match setParamsLoop f.optInputs ps with
  | (slots, Option.none) => ({ f with optInputs := slots, outputsValid := false }, Option.none)
  | (slots, some k) => ({ f with optInputs := slots }, some k)

/-- `self.__input_names[input_name]['price_series'] = price_series`:
in-place rebinding of the input slot named `input_name`; `Option.none`
models the `KeyError` for an unknown slot name. -/
def setSeriesBinding : List InputSlot → String → PyVal → Option (List InputSlot)
  | [], _, _ => Option.none
  | s :: rest, k, v =>
    if s.name = k then some ({ s with priceSeries := v } :: rest)
    else (setSeriesBinding rest k v).map (s :: ·)

/-- The `for input_name, price_series in input_names.items()` loop of the
`input_names` setter, with the same partial-mutation-on-`KeyError`
behaviour as `setParamsLoop`. -/
def setInputNamesLoop : List InputSlot → List (String × PyVal) → List InputSlot × Option String
  | slots, [] => (slots, Option.none)
  | slots, (k, v) :: rest =>
    match setSeriesBinding slots k v with
    | some slots2 => setInputNamesLoop slots2 rest
    | Option.none => (slots, some k)

/-- The `input_names` property setter (`set_input_names`). -/
def set_input_names (f : Facade) (bs : List (String × PyVal)) : Facade × Option String :=
  match setInputNamesLoop f.inputNames bs with
  | (slots, Option.none) => ({ f with inputNames := slots, outputsValid := false }, Option.none)
  | (slots, some k) => ({ f with inputNames := slots }, some k)

/-- The positional-argument loop of `Function.set_function_args`: slot `j`
(in declaration order) receives `args[j + skip]` when that index is in
range (`if i < len(args)`). -/
def assignPositional (slots : List OptInputSlot) (args : List PyVal) (i : Nat) :
    List OptInputSlot :=
  match slots with
  | [] => []
  | s :: rest =>
    match args[i]? with
    | some v => { s with value := v } :: assignPositional rest args (i + 1)
    | Option.none => s :: assignPositional rest args (i + 1)

/-- The `for key in kwargs` loop of `Function.set_function_args`: a key
naming an optional-parameter slot sets its override, else a key naming an
input slot rebinds its price series, else the key is silently skipped. -/
def applyKwargs (f : Facade) : List (String × PyVal) → Facade
  | [] => f
  | (k, v) :: rest =>
    match setOptValue f.optInputs k v with
    | some slots2 => applyKwargs { f with optInputs := slots2 } rest
    | Option.none =>
      match setSeriesBinding f.inputNames k v with
      | some islots2 => applyKwargs { f with inputNames := islots2 } rest
      | Option.none => applyKwargs f rest

/-- `Function.set_function_args(*args, **kwargs)`: if the first positional
argument passes `set_input_arrays` it is consumed, remaining positional
arguments fill optional-parameter slots in declaration order, named
arguments are dispatched by the kwargs loop, and the valid flag is cleared
whenever any argument at all was supplied. -/
def set_function_args (f : Facade) (args : List PyVal) (kwargs : List (String × PyVal)) :
    Facade :=
  let f1 :=
    match args with
    | [] => f
    | a0 :: _ =>
      let r := set_input_arrays f a0
      let skip := if r.2 then 1 else 0
      { r.1 with optInputs := assignPositional r.1.optInputs args skip }
  let f2 := applyKwargs f1 kwargs
  if args.isEmpty && kwargs.isEmpty then f2
  else { f2 with outputsValid := false }

/-- What the direct-call kernel (`func_c.__getattribute__(name)(*args)`)
returns: a single ndarray, or a sequence of ndarrays. -/
inductive KernelResult where
  | one : List Int → KernelResult
  | many : List (List Int) → KernelResult

/-- The result of reading the `outputs` property: one array, or the list of
arrays. -/
inductive OutputsResult where
  | one : PyVal → OutputsResult
  | many : List PyVal → OutputsResult

/-- The series-name gathering loop of `Function.__call_function`: for each
input slot in declaration order, append every name of a list binding in
list order, or the single bound value otherwise. -/
def gatherSeriesNames : List InputSlot → List PyVal → List PyVal
  | [], acc => acc
  | s :: rest, acc =>
    match s.priceSeries with
    | .strList names => gatherSeriesNames rest (acc ++ names.map PyVal.str)
    | ps => gatherSeriesNames rest (acc ++ [ps])

/-- The `for price_series in input_price_series_names` lookup loop of
`__call_function`; `Option.none` models the `KeyError` raised on a name
that is not a key of the input-array dict. -/
def lookupSeries (arrays : List (String × PyVal)) : List PyVal → Option (List PyVal)
  | [] => some []
  | n :: rest =>
    match dictGetPy arrays n with
    | some a => (lookupSeries arrays rest).map (a :: ·)
    | Option.none => Option.none

/-- The argument-assembly step of `Function.__call_function`: the gathered
series names looked up in `self.__input_arrays` (a `KeyError` aborts),
followed by the effective value of every optional-parameter slot in
declaration order. -/
def buildArgs (f : Facade) : Option (List PyVal) :=
  match lookupSeries f.inputArrays (gatherSeriesNames f.inputNames []) with
  | Option.none => Option.none
  | some inputArgs => some (inputArgs ++ f.optInputs.map getOptInputValue)

/-- `self.__outputs[key] = v`: in-place dict update of the entry with that
key (every key written by `__call_function` is an existing output name). -/
def setByKey (d : List (String × PyVal)) (k : String) (v : PyVal) :
    List (String × PyVal) :=
  match d with
  | [] => []
  | (k2, v2) :: rest =>
    if k2 = k then (k2, v) :: rest else (k2, v2) :: setByKey rest k v

/-- The `for i, output in enumerate(self.__outputs)` storing loop of
`__call_function`: iterates the keys captured at loop start while mutating
the dict in place; `Option.none` models the `IndexError` when the kernel
returned fewer arrays than there are output slots. -/
def storeManyAux (keys : List String) (i : Nat) (rs : List (List Int))
    (d : List (String × PyVal)) : Option (List (String × PyVal)) :=
  match keys with
  | [] => some d
  | k :: ks =>
    match rs[i]? with
    | some a => storeManyAux ks (i + 1) rs (setByKey d k (PyVal.arr a))
    | Option.none => Option.none

/-- The result-storing step of `__call_function`: a single ndarray is stored
under the first output key (`self.__outputs.keys()[0]`, an `IndexError` if
there are no outputs), a sequence is distributed by the enumerate loop. -/
def storeResults (outs : List (String × PyVal)) : KernelResult →
    Option (List (String × PyVal))
  | .one a =>
    match outs with
    | [] => Option.none
    | (k, _) :: _ => some (setByKey outs k (PyVal.arr a))
  | .many rs => storeManyAux (outs.map Prod.fst) 0 rs outs

/-- `Function.__call_function`: assemble the positional buffer, invoke the
kernel (an oracle parameter here; `Option.none` models a raising kernel),
store the results and set the valid flag. -/
def callFunction (kernel : List PyVal → Option KernelResult) (f : Facade) :
    Option Facade :=
  match buildArgs f with
  | Option.none => Option.none
  | some args =>
    match kernel args with
    | Option.none => Option.none
    | some results =>
      match storeResults f.outputs results with
      | Option.none => Option.none
      | some outs => some { f with outputs := outs, outputsValid := true }

/-- The return step of the `outputs` property: `ret = self.__outputs.values()`,
a single value is returned bare, otherwise the list is returned. -/
def outputsResultOf (f2 : Facade) : OutputsResult :=
  match f2.outputs.map Prod.snd with
  | [v] => OutputsResult.one v
  | ret => OutputsResult.many ret

/-- Reading the `outputs` property: invoke `__call_function` when the cache
is stale, then return the single stored array when there is exactly one
value, else the list of values.  The boolean records whether the kernel was
invoked by this read. -/
def outputsRead (kernel : List PyVal → Option KernelResult) (f : Facade) :
    Option (Facade × OutputsResult × Bool) :=
  match (if f.outputsValid then some (f, false)
         else (callFunction kernel f).map (fun g => (g, true))) with
  | Option.none => Option.none
  | some (f2, invoked) => some (f2, outputsResultOf f2, invoked)

/-- Oracle for the native parameter-holder protocol used by the `lookback`
property: whether `TA_ParamHolderAlloc` succeeds, whether each per-index
setter call succeeds for the value passed, and the result of
`TA_GetLookback` (`Option.none` models a non-success status, which
`_ta_check_success` turns into a raised exception). -/
structure LookbackEnv where
  allocOk : Bool
  setRealOk : Nat → PyVal → Bool
  setIntOk : Nat → PyVal → Bool
  lookbackResult : Option Int

/-- The `for i, opt_input in enumerate(self.__opt_inputs)` loop of the
`lookback` property: each slot's effective value is written with the
type-appropriate native setter; a failing setter raises at once. -/
def lookbackSetLoop (env : LookbackEnv) : List OptInputSlot → Nat → Except String Unit
  | [], _ => Except.ok ()
  | s :: rest, i =>
    let value := getOptInputValue s
    let ok :=
      if s.type == OptInputType.realRange || s.type == OptInputType.realList then
        env.setRealOk i value
      else if s.type == OptInputType.integerRange || s.type == OptInputType.integerList then
        env.setIntOk i value
      else
        true
    if ok then lookbackSetLoop env rest (i + 1)
    else Except.error "TA_SetOptInputParam"

/-- The `lookback` property: allocate the holder, run the setter loop,
query the lookback, free the holder.  The boolean is `true` exactly when a
holder was allocated and `__ta_paramHolderFree` was never reached (the
holder leaked): the source has no `try`/`finally`, so any raising native
call after allocation skips the free. -/
def lookback (env : LookbackEnv) (f : Facade) : Except String Int × Bool :=
  if env.allocOk = false then (Except.error "TA_ParamHolderAlloc", false)
  else
    match lookbackSetLoop env f.optInputs 0 with
    | Except.error e => (Except.error e, true)
    | Except.ok () =>
      match env.lookbackResult with
      | Option.none => (Except.error "TA_GetLookback", true)
      | some n => (Except.ok n, false)

/-- The per-bit loop of `__get_flags` over bit positions `0, …, n-1`: a set
bit appends `flags_lookup_dict[2**i]`; a missing dict key is a `KeyError`. -/
def flagsLoop (table : List (Nat × String)) (fn : Nat) : List Nat → Except String (List String)
  | [] => Except.ok []
  | i :: rest =>
    if 2 ^ i &&& fn ≠ 0 then
      match dictGet table (2 ^ i) with
      | some label => (flagsLoop table fn rest).map (label :: ·)
      | Option.none => Except.error "KeyError"
    else flagsLoop table fn rest

/-- `__get_flags(flag, flags_lookup_dict)`: `None` for a flag outside
`[1, 2**len(dict) - 1]`, otherwise the labels of the set bits in increasing
bit order (an `Except.error` models the `KeyError` raised when a set bit's
power of two is not a key of the table). -/
def get_flags (flag : Int) (table : List (Nat × String)) :
    Except String (Option (List String)) :=
  if flag < 1 ∨ (2 ^ table.length - 1 : Int) < flag then Except.ok Option.none
  else (flagsLoop table flag.toNat (List.range table.length)).map some

/-- The `ta_func_flags` table of `_ta_getFuncInfo`: keyed by the high-bit
`TA_FuncFlags` values, not by `2**0 … 2**3`. -/
def ta_func_flags : List (Nat × String) :=
  [(16777216, "Output scale same as input"),
   (67108864, "Output is over volume"),
   (134217728, "Function has an unstable period"),
   (268435456, "Output is a candlestick")]

/-- The `ta_input_flags` table of `_ta_getInputParameterInfo`. -/
def ta_input_flags : List (Nat × String) :=
  [(1, "open"), (2, "high"), (4, "low"), (8, "close"),
   (16, "volumne"), (32, "openInterest"), (64, "timeStamp")]

/-- The `ta_output_flags` table of `_ta_getOutputParameterInfo`. -/
def ta_output_flags : List (Nat × String) :=
  [(1, "Line"), (2, "Dotted Line"), (4, "Dashed Line"), (8, "Dot"),
   (16, "Histogram"), (32, "Pattern (Bool)"),
   (64, "Bull/Bear Pattern (Bearish < 0, Neutral = 0, Bullish > 0)"),
   (128, "Strength Pattern ([-200..-100] = Bearish, [-100..0] = Getting Bearish, 0 = Neutral, [0..100] = Getting Bullish, [100-200] = Bullish)"),
   (256, "Output can be positive"), (512, "Output can be negative"),
   (1024, "Output can be zero"), (2048, "Values represent an upper limit"),
   (4096, "Values represent a lower limit")]

/-- `p` is a leading segment of `s` (Python `s.startswith(p)`), on character
lists. -/
def isPre : List Char → List Char → Bool
  | [], _ => true
  | _ :: _, [] => false
  | a :: as, b :: bs => a == b && isPre as bs

/-- `p in s` (Python substring containment), on character lists. -/
def hasSub (p : List Char) : List Char → Bool
  | [] => isPre p []
  | c :: rest => isPre p (c :: rest) || hasSub p rest

/-- `name.replace('real', 'price')` (Python `str.replace`: every
non-overlapping occurrence, scanning left to right). -/
def replaceRealPrice : List Char → List Char
  | 'r' :: 'e' :: 'a' :: 'l' :: rest =>
    'p' :: 'r' :: 'i' :: 'c' :: 'e' :: replaceRealPrice rest
  | c :: rest => c :: replaceRealPrice rest
  | [] => []

def realChars : List Char := ['r', 'e', 'a', 'l']

def priceChars : List Char := ['p', 'r', 'i', 'c', 'e']

/-- The name normalization of `_ta_getInputParameterInfo`: drop the two
characters of the `'in'` prefix, lower-case; a name containing `'real'`
gets the `'real'`→`'price'` substitution, else a name containing `'price'`
becomes the literal `'prices'`. -/
def inputSlotName (raw : List Char) : List Char :=
  let name := (raw.drop 2).map Char.toLower
  if hasSub realChars name then replaceRealPrice name
  else if hasSub priceChars name then priceChars ++ ['s']
  else name

/-- The name normalization of `_ta_getOutputParameterInfo`: drop the three
characters of the `'out'` prefix, lower-case; a name containing `'real'`
that is not exactly `'real'`, `'real0'` or `'real1'` loses its first four
characters. -/
def outputSlotName (raw : List Char) : List Char :=
  let name := (raw.drop 3).map Char.toLower
  if hasSub realChars name
      && !(name == realChars || name == realChars ++ ['0']
            || name == realChars ++ ['1']) then
    name.drop 4
  else name

/-- Claim-side reading of an input slot's bound role names, as §4.3 step 1
words it: each name of a list binding in list order, else the single bound
value. -/
def roleNames (s : InputSlot) : List PyVal :=
  match s.priceSeries with
  | .strList names => names.map PyVal.str
  | ps => [ps]

/-- An integer-kind optional-parameter slot with no override set. -/
def mkOpt (n : String) (d : Int) : OptInputSlot :=
  { name := n, type := OptInputType.integerRange, defaultValue := PyVal.int d,
    value := PyVal.none }

/-- A concrete five-key input-array dict. -/
def sampleArrays : List (String × PyVal) :=
  [("open", PyVal.arr [1]), ("high", PyVal.arr [2]), ("low", PyVal.arr [3]),
   ("close", PyVal.arr [4]), ("volume", PyVal.arr [5])]

/-- A single-output facade shaped like `SMA`. -/
def smaFacade : Facade :=
  { funcName := "SMA",
    inputNames := [⟨"price", PyVal.str "close"⟩],
    optInputs := [mkOpt "timeperiod" 30],
    outputs := [("real", PyVal.none)],
    inputArrays := sampleArrays,
    outputsValid := false }

/-- A multi-output facade shaped like `STOCH` (one list-bound input slot,
two parameters, two outputs). -/
def stochFacade : Facade :=
  { funcName := "STOCH",
    inputNames := [⟨"prices", PyVal.strList ["high", "low", "close"]⟩],
    optInputs := [mkOpt "fastk_period" 5, mkOpt "slowk_period" 3],
    outputs := [("slowk", PyVal.none), ("slowd", PyVal.none)],
    inputArrays := sampleArrays,
    outputsValid := false }

theorem isPre_append (p s : List Char) : isPre p (p ++ s) = true := by
  induction p with
  | nil => rfl
  | cons a as ih => simp [isPre, ih]

theorem hasSub_of_isPre {p s : List Char} (h : isPre p s = true) :
    hasSub p s = true := by
  cases s with
  | nil => simpa [hasSub] using h
  | cons c rest => simp [hasSub, h]

theorem flagsLoop_ok (table : List (Nat × String)) (fn : Nat) :
    ∀ l : List Nat, (∀ i ∈ l, (dictGet table (2 ^ i)).isSome = true) →
      flagsLoop table fn l =
        Except.ok ((l.filter (fun i => decide (2 ^ i &&& fn ≠ 0))).map
          (fun i => (dictGet table (2 ^ i)).getD "")) := by
  intro l
  induction l with
  | nil => intro _; rfl
  | cons i rest ih =>
    intro h
    by_cases hbit : 2 ^ i &&& fn ≠ 0
    · obtain ⟨label, hl⟩ := Option.isSome_iff_exists.mp (h i (by simp))
      simp only [flagsLoop, if_pos hbit, hl,
        ih (fun j hj => h j (List.mem_cons_of_mem _ hj))]
      simp [Except.map, hbit, hl]
    · simp only [flagsLoop, if_neg hbit,
        ih (fun j hj => h j (List.mem_cons_of_mem _ hj))]
      simp [hbit]

/-- C3: the claim says a caller-set override is always used in preference to
the default.  The code tests Python truthiness (`if not value`), so the
set override `0` is discarded and the default `30` is returned instead. -/
theorem c3_truthiness_bug :
    getOptInputValue
        { name := "timeperiod", type := OptInputType.integerRange,
          defaultValue := PyVal.int 30, value := PyVal.int 0 } = PyVal.int 30 ∧
    PyVal.int 0 ≠ PyVal.none ∧ PyVal.int 30 ≠ PyVal.int 0 := by
  refine ⟨rfl, by simp, by simp⟩

/-- C7 counterexample: the claim says `decode` is total (never fails) for
every lookup table.  The function-flags table is keyed by `2^24 … 2^28`, so
the in-range flag `1` hits a missing key `2^0` and raises `KeyError`. -/
theorem c7_counterexample :
    get_flags 1 ta_func_flags = Except.error "KeyError" ∧
    (1 : Int) ≥ 1 ∧ (1 : Int) ≤ 2 ^ ta_func_flags.length - 1 :=
  ⟨rfl, by decide, by decide⟩

/-- C7 amended: for a table that has a key `2^i` for every bit position
`i < |table|` (true of the input-flags and output-flags tables), `decode`
never fails: it returns `None` for a flag outside `[1, 2^|table|-1]` and
otherwise the labels of exactly the set bit positions, in strictly
increasing bit-position order. -/
theorem c7_flag_decoder (flag : Int) (table : List (Nat × String))
    (hkeys : ∀ i, i < table.length → (dictGet table (2 ^ i)).isSome = true) :
    get_flags flag table = Except.ok (
      if flag < 1 ∨ (2 ^ table.length - 1 : Int) < flag then Option.none
      else some (((List.range table.length).filter
          (fun i => decide (2 ^ i &&& flag.toNat ≠ 0))).map
        (fun i => (dictGet table (2 ^ i)).getD ""))) := by
  unfold get_flags
  by_cases hr : flag < 1 ∨ (2 ^ table.length - 1 : Int) < flag
  · simp [hr]
  · simp [hr, flagsLoop_ok table flag.toNat (List.range table.length)
      (fun i hi => hkeys i (List.mem_range.mp hi)), Except.map]

theorem c7_witness :
    (∀ i, i < ta_input_flags.length → (dictGet ta_input_flags (2 ^ i)).isSome = true) ∧
    get_flags 5 ta_input_flags = Except.ok (some ["open", "low"]) :=
  ⟨by decide, by rw [c7_flag_decoder 5 ta_input_flags (by decide)]; rfl⟩

/-- C9: the published output-slot name is the raw name with the `'out'`
prefix stripped and lower-cased; a name containing `'real'` other than the
bare `'real'`, `'real0'`, `'real1'` loses its `'real'` prefix and keeps the
descriptive remainder, while those three bare names are kept verbatim. -/
theorem c9_output_slot_name (tail : List Char) :
    (hasSub realChars (tail.map Char.toLower) = false →
      outputSlotName (['o', 'u', 't'] ++ tail) = tail.map Char.toLower) ∧
    (tail.map Char.toLower = realChars ∨
        tail.map Char.toLower = realChars ++ ['0'] ∨
        tail.map Char.toLower = realChars ++ ['1'] →
      outputSlotName (['o', 'u', 't'] ++ tail) = tail.map Char.toLower) ∧
    (∀ rest, tail.map Char.toLower = realChars ++ rest →
      ¬(realChars ++ rest = realChars ∨ realChars ++ rest = realChars ++ ['0'] ∨
          realChars ++ rest = realChars ++ ['1']) →
      outputSlotName (['o', 'u', 't'] ++ tail) = rest) := by
  have hdrop : (['o', 'u', 't'] ++ tail).drop 3 = tail := rfl
  refine ⟨?_, ?_, ?_⟩
  · intro h
    simp [outputSlotName, hdrop, h]
  · intro h
    rcases h with h | h | h <;> simp [outputSlotName, hdrop, h]
  · intro rest heq hne
    have h1 : rest ≠ [] := fun hc => hne (Or.inl (by simp [hc]))
    have h2 : rest ≠ ['0'] := fun hc => hne (Or.inr (Or.inl (by simp [hc])))
    have h3 : rest ≠ ['1'] := fun hc => hne (Or.inr (Or.inr (by simp [hc])))
    have hsub : hasSub realChars (realChars ++ rest) = true :=
      hasSub_of_isPre (isPre_append realChars rest)
    simp only [outputSlotName, hdrop, heq]
    rw [if_pos]
    · simp [realChars]
    · simp only [realChars] at hsub ⊢
      simp [hsub, h1, h2, h3]
      exact hsub

theorem c9_witness :
    ("RealUpperBand".toList.map Char.toLower = realChars ++ "upperband".toList) ∧
    outputSlotName (['o', 'u', 't'] ++ "RealUpperBand".toList) = "upperband".toList ∧
    outputSlotName (['o', 'u', 't'] ++ "Real0".toList) = "real0".toList :=
  ⟨by decide,
   (c9_output_slot_name "RealUpperBand".toList).2.2 "upperband".toList
     (by decide) (by decide),
   (c9_output_slot_name "Real0".toList).2.1 (by decide)⟩

/-- C10: an input slot whose stripped lower-cased raw name contains
`'price'` but not `'real'` is published under the literal name `'prices'`,
discarding the rest of the raw name; only names containing `'real'` undergo
the `'real'`→`'price'` substitution, and a name containing neither is kept
as stripped and lower-cased. -/
theorem c10_input_slot_name (tail : List Char) :
    (hasSub realChars (tail.map Char.toLower) = false →
        hasSub priceChars (tail.map Char.toLower) = true →
      inputSlotName (['i', 'n'] ++ tail) = ['p', 'r', 'i', 'c', 'e', 's']) ∧
    (hasSub realChars (tail.map Char.toLower) = true →
      inputSlotName (['i', 'n'] ++ tail) = replaceRealPrice (tail.map Char.toLower)) ∧
    (hasSub realChars (tail.map Char.toLower) = false →
        hasSub priceChars (tail.map Char.toLower) = false →
      inputSlotName (['i', 'n'] ++ tail) = tail.map Char.toLower) := by
  have hdrop : (['i', 'n'] ++ tail).drop 2 = tail := rfl
  refine ⟨?_, ?_, ?_⟩
  · intro hreal hprice
    simp only [inputSlotName, hdrop, hreal, hprice]
    simp [priceChars]
  · intro hreal
    simp [inputSlotName, hdrop, hreal]
  · intro hreal hprice
    simp [inputSlotName, hdrop, hreal, hprice]

theorem c10_witness :
    hasSub realChars ("PriceOHLC".toList.map Char.toLower) = false ∧
    hasSub priceChars ("PriceOHLC".toList.map Char.toLower) = true ∧
    inputSlotName (['i', 'n'] ++ "PriceOHLC".toList) = "prices".toList := by
  refine ⟨by decide, by decide, ?_⟩
  rw [(c10_input_slot_name "PriceOHLC".toList).1 (by decide) (by decide)]
  decide

theorem char_toNat_inj {a b : Char} (h : a.toNat = b.toNat) : a = b :=
  Char.ext (UInt32.ext h)

theorem charListLe_total : ∀ a b : List Char, charListLe a b = true ∨ charListLe b a = true := by
  intro a
  induction a with
  | nil => intro b; exact Or.inl rfl
  | cons x xs ih =>
    intro b
    cases b with
    | nil => exact Or.inr rfl
    | cons y ys =>
      by_cases hxy : x = y
      · subst hxy
        rcases ih ys with h | h
        · exact Or.inl (by simp [charListLe, h])
        · exact Or.inr (by simp [charListLe, h])
      · have hyx : ¬y = x := Ne.symm hxy
        rcases Nat.lt_or_ge x.toNat y.toNat with h | h
        · exact Or.inl (by simp [charListLe, hxy, h])
        · have hne : ¬y.toNat = x.toNat := fun hc => hyx (char_toNat_inj hc)
          have hlt : y.toNat < x.toNat := Nat.lt_of_le_of_ne h hne
          exact Or.inr (by simp [charListLe, hyx, hlt])

theorem charListLe_antisymm : ∀ a b : List Char,
    charListLe a b = true → charListLe b a = true → a = b := by
  intro a
  induction a with
  | nil =>
    intro b _ hba
    cases b with
    | nil => rfl
    | cons y ys => simp [charListLe] at hba
  | cons x xs ih =>
    intro b hab hba
    cases b with
    | nil => simp [charListLe] at hab
    | cons y ys =>
      by_cases hxy : x = y
      · subst hxy
        simp only [charListLe, if_pos rfl] at hab hba
        exact congrArg (x :: ·) (ih ys hab hba)
      · have hyx : ¬y = x := Ne.symm hxy
        simp only [charListLe, if_neg hxy, if_neg hyx] at hab hba
        exact absurd (Nat.lt_trans (of_decide_eq_true hab) (of_decide_eq_true hba))
          (Nat.lt_irrefl _)

theorem charListLe_trans : ∀ a b c : List Char,
    charListLe a b = true → charListLe b c = true → charListLe a c = true := by
  intro a
  induction a with
  | nil => intro b c _ _; rfl
  | cons x xs ih =>
    intro b c hab hbc
    cases b with
    | nil => simp [charListLe] at hab
    | cons y ys =>
      cases c with
      | nil => simp [charListLe] at hbc
      | cons z zs =>
        by_cases hxy : x = y
        · subst hxy
          simp only [charListLe, if_pos rfl] at hab
          by_cases hxz : x = z
          · subst hxz
            simp only [charListLe, if_pos rfl] at hbc ⊢
            exact ih ys zs hab hbc
          · simp only [charListLe, if_neg hxz] at hbc ⊢
            exact hbc
        · simp only [charListLe, if_neg hxy] at hab
          have hxy' : x.toNat < y.toNat := of_decide_eq_true hab
          by_cases hyz : y = z
          · subst hyz
            simp [charListLe, hxy, hxy']
          · simp only [charListLe, if_neg hyz] at hbc
            have hyz' : y.toNat < z.toNat := of_decide_eq_true hbc
            have hxz' : x.toNat < z.toNat := Nat.lt_trans hxy' hyz'
            have hxz : ¬x = z := fun hc => by subst hc; exact Nat.lt_irrefl _ hxz'
            simp [charListLe, hxz, hxz']

theorem strLe_total (a b : String) : strLe a b = true ∨ strLe b a = true :=
  charListLe_total a.toList b.toList

theorem strLe_antisymm {a b : String} (hab : strLe a b = true) (hba : strLe b a = true) :
    a = b :=
  String.ext (charListLe_antisymm a.toList b.toList hab hba)

theorem strLe_trans {a b c : String} (hab : strLe a b = true) (hbc : strLe b c = true) :
    strLe a c = true :=
  charListLe_trans a.toList b.toList c.toList hab hbc

theorem insertSorted_perm (s : String) : ∀ l, List.Perm (insertSorted s l) (s :: l) := by
  intro l
  induction l with
  | nil => exact List.Perm.refl _
  | cons t ts ih =>
    by_cases h : strLe s t
    · simp [insertSorted, h]
    · simp only [insertSorted, if_neg h]
      exact (ih.cons t).trans (List.Perm.swap s t ts)

theorem sortStrings_perm : ∀ l, List.Perm (sortStrings l) l := by
  intro l
  induction l with
  | nil => exact List.Perm.refl _
  | cons k ks ih => exact (insertSorted_perm k (sortStrings ks)).trans (ih.cons k)

theorem insertSorted_pairwise (s : String) :
    ∀ l, List.Pairwise (fun a b => strLe a b = true) l →
      List.Pairwise (fun a b => strLe a b = true) (insertSorted s l) := by
  intro l
  induction l with
  | nil => intro _; simp [insertSorted]
  | cons t ts ih =>
    intro h
    rw [List.pairwise_cons] at h
    obtain ⟨ht, hts⟩ := h
    by_cases hst : strLe s t
    · simp only [insertSorted, if_pos hst]
      refine List.Pairwise.cons ?_ (List.Pairwise.cons ht hts)
      intro x hx
      rcases List.mem_cons.mp hx with hx | hx
      · exact hx ▸ hst
      · exact strLe_trans hst (ht x hx)
    · simp only [insertSorted, if_neg hst]
      refine List.Pairwise.cons ?_ (ih hts)
      intro x hx
      rcases List.mem_cons.mp ((insertSorted_perm s ts).mem_iff.mp hx) with hx | hx
      · subst hx
        rcases strLe_total x t with h | h
        · exact absurd h hst
        · exact h
      · exact ht x hx

theorem sortStrings_pairwise : ∀ l, List.Pairwise (fun a b => strLe a b = true) (sortStrings l) := by
  intro l
  induction l with
  | nil => simp [sortStrings]
  | cons k ks ih => exact insertSorted_pairwise k (sortStrings ks) ih

instance : IsAntisymm String (fun a b => strLe a b = true) := ⟨fun _ _ => strLe_antisymm⟩

theorem sortStrings_eq_five_iff (l : List String) :
    sortStrings l = ["close", "high", "low", "open", "volume"] ↔
      List.Perm l ["close", "high", "low", "open", "volume"] := by
  constructor
  · intro h
    exact h ▸ (sortStrings_perm l).symm
  · intro h
    refine List.eq_of_perm_of_sorted ((sortStrings_perm l).trans h) (sortStrings_pairwise l) ?_
    decide

theorem setOptValue_names {slots slots2 : List OptInputSlot} {k : String} {v : PyVal}
    (h : setOptValue slots k v = some slots2) :
    slots2.map OptInputSlot.name = slots.map OptInputSlot.name := by
  induction slots generalizing slots2 with
  | nil => simp [setOptValue] at h
  | cons s rest ih =>
    by_cases hk : s.name = k
    · simp only [setOptValue, if_pos hk, Option.some.injEq] at h
      subst h
      rfl
    · simp only [setOptValue, if_neg hk, Option.map_eq_some'] at h
      obtain ⟨r2, hr2, hs⟩ := h
      subst hs
      simp [ih hr2]

theorem setOptValue_eq_none {slots : List OptInputSlot} {k : String} {v : PyVal}
    (h : ∀ s ∈ slots, s.name ≠ k) : setOptValue slots k v = Option.none := by
  induction slots with
  | nil => rfl
  | cons s rest ih =>
    simp only [setOptValue, if_neg (h s (by simp)),
      ih (fun t ht => h t (List.mem_cons_of_mem _ ht))]
    rfl

theorem setSeriesBinding_names {slots slots2 : List InputSlot} {k : String} {v : PyVal}
    (h : setSeriesBinding slots k v = some slots2) :
    slots2.map InputSlot.name = slots.map InputSlot.name := by
  induction slots generalizing slots2 with
  | nil => simp [setSeriesBinding] at h
  | cons s rest ih =>
    by_cases hk : s.name = k
    · simp only [setSeriesBinding, if_pos hk, Option.some.injEq] at h
      subst h
      rfl
    · simp only [setSeriesBinding, if_neg hk, Option.map_eq_some'] at h
      obtain ⟨r2, hr2, hs⟩ := h
      subst hs
      simp [ih hr2]

theorem setSeriesBinding_eq_none {slots : List InputSlot} {k : String} {v : PyVal}
    (h : ∀ s ∈ slots, s.name ≠ k) : setSeriesBinding slots k v = Option.none := by
  induction slots with
  | nil => rfl
  | cons s rest ih =>
    simp only [setSeriesBinding, if_neg (h s (by simp)),
      ih (fun t ht => h t (List.mem_cons_of_mem _ ht))]
    rfl

theorem setParamsLoop_names (ps : List (String × PyVal)) :
    ∀ slots : List OptInputSlot,
      (setParamsLoop slots ps).1.map OptInputSlot.name = slots.map OptInputSlot.name := by
  induction ps with
  | nil => intro slots; rfl
  | cons p rest ih =>
    obtain ⟨k, v⟩ := p
    intro slots
    cases hsv : setOptValue slots k v with
    | none => simp [setParamsLoop, hsv]
    | some slots2 =>
      simp only [setParamsLoop, hsv]
      exact (ih slots2).trans (setOptValue_names hsv)

theorem setInputNamesLoop_names (bs : List (String × PyVal)) :
    ∀ slots : List InputSlot,
      (setInputNamesLoop slots bs).1.map InputSlot.name = slots.map InputSlot.name := by
  induction bs with
  | nil => intro slots; rfl
  | cons p rest ih =>
    obtain ⟨k, v⟩ := p
    intro slots
    cases hsv : setSeriesBinding slots k v with
    | none => simp [setInputNamesLoop, hsv]
    | some slots2 =>
      simp only [setInputNamesLoop, hsv]
      exact (ih slots2).trans (setSeriesBinding_names hsv)

theorem assignPositional_names (args : List PyVal) :
    ∀ (slots : List OptInputSlot) (i : Nat),
      (assignPositional slots args i).map OptInputSlot.name = slots.map OptInputSlot.name := by
  intro slots
  induction slots with
  | nil => intro i; rfl
  | cons s rest ih =>
    intro i
    cases h : args[i]? with
    | none => simp [assignPositional, h, ih]
    | some v => simp [assignPositional, h, ih]

theorem set_input_arrays_fields (f : Facade) (x : PyVal) :
    (set_input_arrays f x).1.funcName = f.funcName ∧
    (set_input_arrays f x).1.inputNames = f.inputNames ∧
    (set_input_arrays f x).1.optInputs = f.optInputs ∧
    (set_input_arrays f x).1.outputs = f.outputs := by
  cases x with
  | dict d =>
    by_cases hd : sortedKeys d = ["close", "high", "low", "open", "volume"] <;>
      simp [set_input_arrays, hd]
  | none => exact ⟨rfl, rfl, rfl, rfl⟩
  | int n => exact ⟨rfl, rfl, rfl, rfl⟩
  | str s => exact ⟨rfl, rfl, rfl, rfl⟩
  | strList l => exact ⟨rfl, rfl, rfl, rfl⟩
  | arr a => exact ⟨rfl, rfl, rfl, rfl⟩

theorem applyKwargs_fields (kwargs : List (String × PyVal)) :
    ∀ f : Facade,
      (applyKwargs f kwargs).inputNames.map InputSlot.name =
          f.inputNames.map InputSlot.name ∧
      (applyKwargs f kwargs).optInputs.map OptInputSlot.name =
          f.optInputs.map OptInputSlot.name ∧
      (applyKwargs f kwargs).funcName = f.funcName ∧
      (applyKwargs f kwargs).outputs = f.outputs ∧
      (applyKwargs f kwargs).outputsValid = f.outputsValid ∧
      (applyKwargs f kwargs).inputArrays = f.inputArrays := by
  induction kwargs with
  | nil => intro f; exact ⟨rfl, rfl, rfl, rfl, rfl, rfl⟩
  | cons p rest ih =>
    obtain ⟨k, v⟩ := p
    intro f
    cases h1 : setOptValue f.optInputs k v with
    | some slots2 =>
      obtain ⟨a, b, c, d, e, g⟩ := ih { f with optInputs := slots2 }
      refine ⟨?_, ?_, ?_, ?_, ?_, ?_⟩ <;>
        simp [applyKwargs, h1, a, b, c, d, e, g, setOptValue_names h1]
    | none =>
      cases h2 : setSeriesBinding f.inputNames k v with
      | some islots2 =>
        obtain ⟨a, b, c, d, e, g⟩ := ih { f with inputNames := islots2 }
        refine ⟨?_, ?_, ?_, ?_, ?_, ?_⟩ <;>
          simp [applyKwargs, h1, h2, a, b, c, d, e, g, setSeriesBinding_names h2]
      | none =>
        obtain ⟨a, b, c, d, e, g⟩ := ih f
        refine ⟨?_, ?_, ?_, ?_, ?_, ?_⟩ <;> simp [applyKwargs, h1, h2, a, b, c, d, e, g]

/-- C4: `set_input_arrays` succeeds exactly when given a dict whose key
multiset is exactly the five canonical series names; on success it replaces
the stored arrays and invalidates the cache, on failure it returns `False`
leaving every part of the facade unchanged (and, being total, it raises
nothing). -/
theorem c4_set_input_arrays (f : Facade) (x : PyVal) :
    ((set_input_arrays f x).2 = true ↔
      ∃ d, x = PyVal.dict d ∧
        List.Perm (d.map Prod.fst) ["close", "high", "low", "open", "volume"]) ∧
    ((set_input_arrays f x).2 = false → (set_input_arrays f x).1 = f) ∧
    (∀ d, x = PyVal.dict d → (set_input_arrays f x).2 = true →
      (set_input_arrays f x).1 = { f with inputArrays := d, outputsValid := false }) := by
  cases x with
  | dict d =>
    by_cases hd : sortedKeys d = ["close", "high", "low", "open", "volume"]
    · have hperm := (sortStrings_eq_five_iff (d.map Prod.fst)).mp hd
      refine ⟨?_, ?_, ?_⟩
      · simp only [set_input_arrays, if_pos hd]
        exact ⟨fun _ => ⟨d, rfl, hperm⟩, fun _ => by trivial⟩
      · intro hfalse
        simp [set_input_arrays, hd] at hfalse
      · intro d2 hd2 _
        have : d2 = d := by
          cases hd2
          rfl
        subst this
        simp [set_input_arrays, hd]
    · refine ⟨?_, ?_, ?_⟩
      · simp only [set_input_arrays, if_neg hd]
        constructor
        · intro h
          exact absurd h (by simp)
        · rintro ⟨d2, hd2, hperm⟩
          cases hd2
          exact absurd ((sortStrings_eq_five_iff (d.map Prod.fst)).mpr hperm) hd
      · intro _
        simp [set_input_arrays, hd]
      · intro d2 hd2 htrue
        cases hd2
        simp [set_input_arrays, hd] at htrue
  | none =>
    exact ⟨by simp [set_input_arrays], fun _ => rfl, fun d h => by cases h⟩
  | int n =>
    exact ⟨by simp [set_input_arrays], fun _ => rfl, fun d h => by cases h⟩
  | str s =>
    exact ⟨by simp [set_input_arrays], fun _ => rfl, fun d h => by cases h⟩
  | strList l =>
    exact ⟨by simp [set_input_arrays], fun _ => rfl, fun d h => by cases h⟩
  | arr a =>
    exact ⟨by simp [set_input_arrays], fun _ => rfl, fun d h => by cases h⟩

theorem c4_witness :
    ((set_input_arrays smaFacade (PyVal.dict
        [("open", PyVal.arr []), ("close", PyVal.arr []), ("high", PyVal.arr []),
         ("low", PyVal.arr []), ("volume", PyVal.arr [])])).2 = true) ∧
    ((set_input_arrays smaFacade (PyVal.dict [("open", PyVal.arr [])])).2 = false) ∧
    ((set_input_arrays smaFacade (PyVal.dict [("open", PyVal.arr [])])).1 = smaFacade) := by
  refine ⟨?_, ?_, ?_⟩
  · exact (c4_set_input_arrays smaFacade _).1.mpr ⟨_, rfl, by decide⟩
  · rfl
  · exact (c4_set_input_arrays smaFacade _).2.1 rfl

/-- C5 counterexample: the claim says the native parameter-holder is
released on every exit path.  With a successful allocation and a failing
`TA_GetLookback`, the exception propagates before `__ta_paramHolderFree`
is reached and the holder leaks (second component `true`). -/
theorem c5_counterexample :
    lookback
        { allocOk := true, setRealOk := fun _ _ => true,
          setIntOk := fun _ _ => true, lookbackResult := Option.none }
        smaFacade = (Except.error "TA_GetLookback", true) := rfl

/-- C5 amended: the holder is released on the successful path, but it leaks
exactly when a native setter call or the lookback query fails after a
successful allocation — the source has no `try`/`finally`, so release is
not guaranteed on the failing exit paths. -/
theorem c5_lookback_release (env : LookbackEnv) (f : Facade) :
    (lookback env f).2 = true ↔
      env.allocOk = true ∧ ∃ e, (lookback env f).1 = Except.error e := by
  unfold lookback
  by_cases ha : env.allocOk = false
  · simp [ha]
  · have ha' : env.allocOk = true := by
      revert ha
      cases env.allocOk <;> simp
    cases hloop : lookbackSetLoop env f.optInputs 0 with
    | error e => simp [ha', hloop]
    | ok u =>
      cases u
      cases hlb : env.lookbackResult with
      | none => simp [ha', hloop, hlb]
      | some n => simp [ha', hloop, hlb]

theorem c5_witness :
    (lookback
        { allocOk := true, setRealOk := fun _ _ => true,
          setIntOk := fun _ _ => false, lookbackResult := some 3 }
        smaFacade).2 = true := by
  rw [c5_lookback_release]
  exact ⟨rfl, "TA_SetOptInputParam", rfl⟩

/-- C6 counterexample: the claim says keys matching declared slots are
still applied when some key is rejected.  With the unknown key first in
iteration order, `set_parameters` raises `KeyError` at once: the matching
key `slowk_period` is not applied and the facade is returned unchanged. -/
theorem c6_counterexample :
    set_parameters stochFacade [("bogus", PyVal.int 1), ("slowk_period", PyVal.int 9)] =
      (stochFacade, some "bogus") ∧
    "slowk_period" ∈ stochFacade.optInputs.map OptInputSlot.name :=
  ⟨rfl, by decide⟩

/-- C6 amended: `set_parameters` raises a `KeyError` naming the first
unknown key, applying the keys before it and none after it, and without
invalidating the cache; `set_function_args` applies matching named
arguments and silently ignores unknown ones without any rejection. -/
theorem c6_unknown_keys (f : Facade) (k : String) (v : PyVal) (ps : List (String × PyVal)) :
    ((∀ s ∈ f.optInputs, s.name ≠ k) →
      set_parameters f ((k, v) :: ps) = (f, some k)) ∧
    (∀ slots2, setOptValue f.optInputs k v = some slots2 →
      set_parameters f ((k, v) :: ps) = set_parameters { f with optInputs := slots2 } ps) ∧
    ((∀ s ∈ f.optInputs, s.name ≠ k) → (∀ s ∈ f.inputNames, s.name ≠ k) →
      set_function_args f [] [(k, v)] = { f with outputsValid := false }) := by
  refine ⟨?_, ?_, ?_⟩
  · intro h
    simp [set_parameters, setParamsLoop, setOptValue_eq_none h]
  · intro slots2 h
    simp [set_parameters, setParamsLoop, h]
  · intro h1 h2
    simp [set_function_args, applyKwargs, setOptValue_eq_none h1, setSeriesBinding_eq_none h2]

theorem c6_witness :
    (∀ s ∈ smaFacade.optInputs, s.name ≠ "bogus") ∧
    set_parameters smaFacade [("bogus", PyVal.int 1)] = (smaFacade, some "bogus") ∧
    set_function_args smaFacade [] [("bogus", PyVal.int 1)] =
      { smaFacade with outputsValid := false } := by
  refine ⟨by decide, ?_, ?_⟩
  · exact (c6_unknown_keys smaFacade "bogus" (PyVal.int 1) []).1 (by decide)
  · exact (c6_unknown_keys smaFacade "bogus" (PyVal.int 1) []).2.2 (by decide) (by decide)

theorem gatherSeriesNames_eq :
    ∀ (slots : List InputSlot) (acc : List PyVal),
      gatherSeriesNames slots acc = acc ++ slots.flatMap roleNames := by
  intro slots
  induction slots with
  | nil => intro acc; simp [gatherSeriesNames]
  | cons s rest ih =>
    intro acc
    obtain ⟨n, ps⟩ := s
    cases ps <;> simp [gatherSeriesNames, roleNames, ih, List.append_assoc]

theorem lookupSeries_all_some (arrays : List (String × PyVal)) :
    ∀ names : List PyVal, (∀ n ∈ names, (dictGetPy arrays n).isSome = true) →
      lookupSeries arrays names =
        some (names.map fun n => (dictGetPy arrays n).getD PyVal.none) := by
  intro names
  induction names with
  | nil => intro _; rfl
  | cons n rest ih =>
    intro h
    obtain ⟨a, ha⟩ := Option.isSome_iff_exists.mp (h n (by simp))
    simp [lookupSeries, ha, ih (fun m hm => h m (List.mem_cons_of_mem _ hm))]

/-- C1: the positional buffer assembled by `__call_function` is exactly, for
each input slot in declaration order, the array bound to each of its role
names in list order (one array for a single-name binding), followed by each
optional-parameter slot's effective value in declaration order; and every
facade mutation preserves the slot sequences captured at discovery
verbatim. -/
theorem c1_argument_assembly (f : Facade)
    (h : ∀ n ∈ f.inputNames.flatMap roleNames, (dictGetPy f.inputArrays n).isSome = true) :
    buildArgs f = some
      (((f.inputNames.flatMap roleNames).map
          (fun n => (dictGetPy f.inputArrays n).getD PyVal.none)) ++
        f.optInputs.map getOptInputValue) ∧
    (∀ ps, (set_parameters f ps).1.inputNames = f.inputNames ∧
      (set_parameters f ps).1.optInputs.map OptInputSlot.name =
        f.optInputs.map OptInputSlot.name) ∧
    (∀ bs, (set_input_names f bs).1.inputNames.map InputSlot.name =
        f.inputNames.map InputSlot.name ∧
      (set_input_names f bs).1.optInputs = f.optInputs) ∧
    (∀ args kwargs,
      (set_function_args f args kwargs).inputNames.map InputSlot.name =
        f.inputNames.map InputSlot.name ∧
      (set_function_args f args kwargs).optInputs.map OptInputSlot.name =
        f.optInputs.map OptInputSlot.name) ∧
    (∀ x, (set_input_arrays f x).1.inputNames = f.inputNames ∧
      (set_input_arrays f x).1.optInputs = f.optInputs) := by
  refine ⟨?_, ?_, ?_, ?_, ?_⟩
  · unfold buildArgs
    rw [gatherSeriesNames_eq f.inputNames [], List.nil_append,
      lookupSeries_all_some f.inputArrays _ h]
  · intro ps
    cases hloop : setParamsLoop f.optInputs ps with
    | mk slots err =>
      have hnames := setParamsLoop_names ps f.optInputs
      rw [hloop] at hnames
      cases err with
      | none => exact ⟨by simp [set_parameters, hloop], by simpa [set_parameters, hloop] using hnames⟩
      | some k => exact ⟨by simp [set_parameters, hloop], by simpa [set_parameters, hloop] using hnames⟩
  · intro bs
    cases hloop : setInputNamesLoop f.inputNames bs with
    | mk slots err =>
      have hnames := setInputNamesLoop_names bs f.inputNames
      rw [hloop] at hnames
      cases err with
      | none => exact ⟨by simpa [set_input_names, hloop] using hnames, by simp [set_input_names, hloop]⟩
      | some k => exact ⟨by simpa [set_input_names, hloop] using hnames, by simp [set_input_names, hloop]⟩
  · intro args kwargs
    unfold set_function_args
    cases args with
    | nil =>
      obtain ⟨a, b, _, _, _, _⟩ := applyKwargs_fields kwargs f
      by_cases hk : kwargs.isEmpty <;> simp [hk, a, b]
    | cons a0 atail =>
      obtain ⟨_, hin, hopt, _⟩ := set_input_arrays_fields f a0
      obtain ⟨a, b, _, _, _, _⟩ :=
        applyKwargs_fields kwargs
          { (set_input_arrays f a0).1 with
            optInputs := assignPositional (set_input_arrays f a0).1.optInputs
              (a0 :: atail) (if (set_input_arrays f a0).2 then 1 else 0) }
      refine ⟨?_, ?_⟩
      · simpa [hin] using a
      · simpa [assignPositional_names, hopt] using b
  · intro x
    obtain ⟨_, hin, hopt, _⟩ := set_input_arrays_fields f x
    exact ⟨hin, hopt⟩

theorem c1_witness :
    (∀ n ∈ stochFacade.inputNames.flatMap roleNames,
      (dictGetPy stochFacade.inputArrays n).isSome = true) ∧
    buildArgs stochFacade = some
      [PyVal.arr [2], PyVal.arr [3], PyVal.arr [4], PyVal.int 5, PyVal.int 3] := by
  refine ⟨by decide, ?_⟩
  rw [(c1_argument_assembly stochFacade (by decide)).1]
  rfl

theorem setByKey_keys (d : List (String × PyVal)) (k : String) (v : PyVal) :
    (setByKey d k v).map Prod.fst = d.map Prod.fst := by
  induction d with
  | nil => rfl
  | cons p rest ih =>
    obtain ⟨k2, v2⟩ := p
    by_cases h : k2 = k <;> simp [setByKey, h, ih]

theorem storeManyAux_keys :
    ∀ (keys : List String) (i : Nat) (rs : List (List Int)) (d d2 : List (String × PyVal)),
      storeManyAux keys i rs d = some d2 → d2.map Prod.fst = d.map Prod.fst := by
  intro keys
  induction keys with
  | nil =>
    intro i rs d d2 h
    simp only [storeManyAux, Option.some.injEq] at h
    subst h
    rfl
  | cons k ks ih =>
    intro i rs d d2 h
    cases hr : rs[i]? with
    | none => simp [storeManyAux, hr] at h
    | some a =>
      simp only [storeManyAux, hr] at h
      exact (ih (i + 1) rs _ d2 h).trans (setByKey_keys d k (PyVal.arr a))

theorem storeResults_keys {outs outs2 : List (String × PyVal)} {r : KernelResult}
    (h : storeResults outs r = some outs2) :
    outs2.map Prod.fst = outs.map Prod.fst := by
  cases r with
  | one a =>
    cases outs with
    | nil => simp [storeResults] at h
    | cons p rest =>
      obtain ⟨k, v⟩ := p
      simp only [storeResults, Option.some.injEq] at h
      subst h
      exact setByKey_keys _ _ _
  | many rs => exact storeManyAux_keys _ 0 rs _ _ h

theorem callFunction_decomp {kernel : List PyVal → Option KernelResult} {f g : Facade}
    (h : callFunction kernel f = some g) :
    ∃ args results outs, buildArgs f = some args ∧ kernel args = some results ∧
      storeResults f.outputs results = some outs ∧
      g = { f with outputs := outs, outputsValid := true } := by
  unfold callFunction at h
  cases hb : buildArgs f with
  | none =>
    simp only [hb] at h
    exact Option.noConfusion h
  | some args =>
    simp only [hb] at h
    cases hk : kernel args with
    | none =>
      simp only [hk] at h
      exact Option.noConfusion h
    | some results =>
      simp only [hk] at h
      cases hs : storeResults f.outputs results with
      | none =>
        simp only [hs] at h
        exact Option.noConfusion h
      | some outs =>
        simp only [hs, Option.some.injEq] at h
        exact ⟨args, results, outs, rfl, hk, hs, h.symm⟩

theorem callFunction_fields {kernel : List PyVal → Option KernelResult} {f g : Facade}
    (h : callFunction kernel f = some g) :
    g.outputsValid = true ∧ g.funcName = f.funcName ∧ g.inputNames = f.inputNames ∧
    g.optInputs = f.optInputs ∧ g.inputArrays = f.inputArrays ∧
    g.outputs.map Prod.fst = f.outputs.map Prod.fst := by
  obtain ⟨args, results, outs, _, _, hs, rfl⟩ := callFunction_decomp h
  exact ⟨rfl, rfl, rfl, rfl, rfl, storeResults_keys hs⟩

/-- C2 amended: a successful `outputs` read leaves the facade cached so
that an immediately repeated read (under any kernel) returns the same
result without invoking the kernel; and every successfully completed
mutation — a successful `set_input_arrays`, a `set_parameters` or
input-role rebinding that completes without `KeyError`, or
`set_function_args` given any argument at all — leaves the valid flag
cleared so the next read re-invokes the kernel. -/
theorem c2_cache_invariant :
    (∀ (kernel kernel2 : List PyVal → Option KernelResult) (f f2 : Facade)
        (r : OutputsResult) (b : Bool),
      outputsRead kernel f = some (f2, r, b) →
      outputsRead kernel2 f2 = some (f2, r, false)) ∧
    (∀ (f : Facade) (x : PyVal), (set_input_arrays f x).2 = true →
      (set_input_arrays f x).1.outputsValid = false) ∧
    (∀ (f : Facade) (ps : List (String × PyVal)), (set_parameters f ps).2 = Option.none →
      (set_parameters f ps).1.outputsValid = false) ∧
    (∀ (f : Facade) (bs : List (String × PyVal)), (set_input_names f bs).2 = Option.none →
      (set_input_names f bs).1.outputsValid = false) ∧
    (∀ (f : Facade) (args : List PyVal) (kwargs : List (String × PyVal)),
      args ≠ [] ∨ kwargs ≠ [] →
      (set_function_args f args kwargs).outputsValid = false) := by
  refine ⟨?_, ?_, ?_, ?_, ?_⟩
  · intro kernel kernel2 f f2 r b h
    by_cases hv : f.outputsValid
    · simp only [outputsRead, hv, if_pos, Option.some.injEq, Prod.mk.injEq] at h
      obtain ⟨rfl, rfl, rfl⟩ := h
      simp [outputsRead, hv]
    · simp only [outputsRead, hv] at h
      cases hc : callFunction kernel f with
      | none => simp [hc] at h
      | some g =>
        simp only [hc, Option.map_some', Option.some.injEq, Prod.mk.injEq] at h
        obtain ⟨rfl, rfl, rfl⟩ := h
        simp [outputsRead, (callFunction_fields hc).1]
  · intro f x h
    cases x with
    | dict d =>
      by_cases hd : sortedKeys d = ["close", "high", "low", "open", "volume"]
      · simp [set_input_arrays, hd]
      · simp [set_input_arrays, hd] at h
    | none => cases h
    | int n => cases h
    | str s => cases h
    | strList l => cases h
    | arr a => cases h
  · intro f ps h
    cases hloop : setParamsLoop f.optInputs ps with
    | mk slots err =>
      cases err with
      | none => simp [set_parameters, hloop]
      | some k => simp [set_parameters, hloop] at h
  · intro f bs h
    cases hloop : setInputNamesLoop f.inputNames bs with
    | mk slots err =>
      cases err with
      | none => simp [set_input_names, hloop]
      | some k => simp [set_input_names, hloop] at h
  · intro f args kwargs h
    have hne : (args.isEmpty && kwargs.isEmpty) = false := by
      rcases h with h | h
      · cases args with
        | nil => exact absurd rfl h
        | cons a t => rfl
      · cases kwargs with
        | nil => exact absurd rfl h
        | cons p t => simp
    simp [set_function_args, hne]

/-- C2 counterexample: the claim says the cache is valid only if no
optional-parameter value has changed since the last invocation.  A
`set_parameters` call whose second key is unknown applies the first key
(the `timeperiod` override becomes `10`) and then raises `KeyError` before
ever reaching `self.__outputs_valid = False`: a parameter changed, yet the
cache stays valid. -/
theorem c2_counterexample :
    (set_parameters { smaFacade with outputsValid := true }
        [("timeperiod", PyVal.int 10), ("bogus", PyVal.int 1)]).1.optInputs.map
          OptInputSlot.value ≠
      smaFacade.optInputs.map OptInputSlot.value ∧
    (set_parameters { smaFacade with outputsValid := true }
        [("timeperiod", PyVal.int 10), ("bogus", PyVal.int 1)]).2 = some "bogus" ∧
    (set_parameters { smaFacade with outputsValid := true }
        [("timeperiod", PyVal.int 10), ("bogus", PyVal.int 1)]).1.outputsValid = true := by
  refine ⟨?_, rfl, rfl⟩
  intro hc
  have h1 : (set_parameters { smaFacade with outputsValid := true }
      [("timeperiod", PyVal.int 10), ("bogus", PyVal.int 1)]).1.optInputs.map
        OptInputSlot.value = [PyVal.int 10] := rfl
  have h2 : smaFacade.optInputs.map OptInputSlot.value = [PyVal.none] := rfl
  rw [h1, h2] at hc
  simp at hc

theorem c2_witness :
    outputsRead (fun _ => Option.none) { smaFacade with outputsValid := true } =
      some ({ smaFacade with outputsValid := true }, OutputsResult.one PyVal.none, false) ∧
    (set_input_arrays smaFacade (PyVal.dict sampleArrays)).1.outputsValid = false ∧
    (set_parameters smaFacade [("timeperiod", PyVal.int 10)]).1.outputsValid = false ∧
    (set_input_names smaFacade [("price", PyVal.str "open")]).1.outputsValid = false ∧
    (set_function_args smaFacade [PyVal.int 9] []).outputsValid = false := by
  refine ⟨?_, ?_, ?_, ?_, ?_⟩
  · exact c2_cache_invariant.1 (fun _ => Option.none) (fun _ => Option.none)
      { smaFacade with outputsValid := true } { smaFacade with outputsValid := true }
      (OutputsResult.one PyVal.none) false rfl
  · exact c2_cache_invariant.2.1 smaFacade (PyVal.dict sampleArrays) rfl
  · exact c2_cache_invariant.2.2.1 smaFacade [("timeperiod", PyVal.int 10)] rfl
  · exact c2_cache_invariant.2.2.2.1 smaFacade [("price", PyVal.str "open")] rfl
  · exact c2_cache_invariant.2.2.2.2 smaFacade [PyVal.int 9] [] (Or.inl (by simp))

theorem storeManyAux_skip :
    ∀ (keys : List String) (i : Nat) (rs : List (List Int)) (k : String) (v : PyVal)
      (d : List (String × PyVal)), k ∉ keys →
      storeManyAux keys i rs ((k, v) :: d) =
        (storeManyAux keys i rs d).map ((k, v) :: ·) := by
  intro keys
  induction keys with
  | nil => intro i rs k v d _; rfl
  | cons k2 ks ih =>
    intro i rs k v d hk
    have hne : ¬k2 = k := fun hc => hk (hc ▸ List.mem_cons_self k2 ks)
    have hne' : ¬k = k2 := fun hc => hne hc.symm
    cases hr : rs[i]? with
    | none => simp [storeManyAux, hr]
    | some a =>
      have hset : setByKey ((k, v) :: d) k2 (PyVal.arr a) =
          (k, v) :: setByKey d k2 (PyVal.arr a) := by
        simp [setByKey, hne']
      simp only [storeManyAux, hr, hset]
      exact ih (i + 1) rs k v _ (fun hc => hk (List.mem_cons_of_mem _ hc))

theorem storeManyAux_nodup :
    ∀ (d : List (String × PyVal)) (rs : List (List Int)) (i : Nat),
      (d.map Prod.fst).Nodup → i + d.length ≤ rs.length →
      storeManyAux (d.map Prod.fst) i rs d =
        some ((d.map Prod.fst).zip (((rs.drop i).take d.length).map PyVal.arr)) := by
  intro d
  induction d with
  | nil => intro rs i _ _; simp [storeManyAux]
  | cons p d2 ih =>
    obtain ⟨k, v⟩ := p
    intro rs i hnd hlen
    have hnd' : (k :: d2.map Prod.fst).Nodup := by simpa using hnd
    have hkd : k ∉ d2.map Prod.fst := (List.nodup_cons.mp hnd').1
    have hnd2 : (d2.map Prod.fst).Nodup := (List.nodup_cons.mp hnd').2
    have hi : i < rs.length := by
      simp only [List.length_cons] at hlen
      omega
    have hr : rs[i]? = some (rs[i]) := List.getElem?_eq_getElem hi
    have hset : setByKey ((k, v) :: d2) k (PyVal.arr (rs[i])) =
        (k, PyVal.arr (rs[i])) :: d2 := by
      simp [setByKey]
    have hdrop : rs.drop i = rs[i] :: rs.drop (i + 1) := List.drop_eq_getElem_cons hi
    simp only [List.map_cons, storeManyAux, hr, hset]
    rw [storeManyAux_skip (d2.map Prod.fst) (i + 1) rs k (PyVal.arr (rs[i])) d2 hkd,
      ih rs (i + 1) hnd2 (by simp only [List.length_cons] at hlen; omega)]
    simp only [Option.map_some', List.length_cons, hdrop, List.take_succ_cons,
      List.map_cons, List.zip_cons_cons]

theorem outputsResultOf_single {f2 : Facade} {v : PyVal}
    (h : f2.outputs.map Prod.snd = [v]) : outputsResultOf f2 = OutputsResult.one v := by
  simp [outputsResultOf, h]

theorem outputsResultOf_pair {f2 : Facade} {a b : PyVal} {t : List PyVal}
    (h : f2.outputs.map Prod.snd = a :: b :: t) :
    outputsResultOf f2 = OutputsResult.many (a :: b :: t) := by
  simp [outputsResultOf, h]

/-- C8: under a successful `outputs` read the published output names are the
declared ones in declaration order; with exactly one declared output slot
the read returns that single array bare; with more than one it returns as
many arrays as there are declared output slots; and (for distinct declared
names, with a kernel returning one array per slot) the arrays are stored in
declaration order, the i-th declared output receiving the i-th kernel
array. -/
theorem c8_outputs_shape (kernel : List PyVal → Option KernelResult) (f f2 : Facade)
    (r : OutputsResult) (b : Bool)
    (h : outputsRead kernel f = some (f2, r, b)) :
    f2.outputs.map Prod.fst = f.outputs.map Prod.fst ∧
    (f.outputs.length = 1 →
      ∃ v, r = OutputsResult.one v ∧ f2.outputs.map Prod.snd = [v]) ∧
    (1 < f.outputs.length → r = OutputsResult.many (f2.outputs.map Prod.snd) ∧
      (f2.outputs.map Prod.snd).length = f.outputs.length) ∧
    (∀ args rs, f.outputsValid = false → (f.outputs.map Prod.fst).Nodup →
      buildArgs f = some args → kernel args = some (KernelResult.many rs) →
      rs.length = f.outputs.length →
      f2.outputs.map Prod.snd = rs.map PyVal.arr) := by
  have hmain : f2.outputs.map Prod.fst = f.outputs.map Prod.fst ∧ r = outputsResultOf f2 ∧
      (f.outputsValid = false → callFunction kernel f = some f2) := by
    by_cases hv : f.outputsValid
    · simp only [outputsRead, hv, if_pos, Option.some.injEq, Prod.mk.injEq] at h
      obtain ⟨rfl, rfl, rfl⟩ := h
      exact ⟨rfl, rfl, fun hc => by rw [hv] at hc; cases hc⟩
    · simp only [outputsRead, hv] at h
      cases hc : callFunction kernel f with
      | none => simp [hc] at h
      | some g =>
        simp only [hc, Option.map_some', Option.some.injEq, Prod.mk.injEq] at h
        obtain ⟨rfl, rfl, rfl⟩ := h
        exact ⟨(callFunction_fields hc).2.2.2.2.2, rfl, fun _ => rfl⟩
  obtain ⟨hkeys, hr, hcall⟩ := hmain
  have hlen : f2.outputs.length = f.outputs.length := by
    have := congrArg List.length hkeys
    simpa using this
  refine ⟨hkeys, ?_, ?_, ?_⟩
  · intro h1
    have : (f2.outputs.map Prod.snd).length = 1 := by simpa [hlen] using h1
    obtain ⟨v, hv⟩ := List.length_eq_one.mp this
    exact ⟨v, hr.trans (outputsResultOf_single hv), hv⟩
  · intro h1
    have h2 : 1 < (f2.outputs.map Prod.snd).length := by
      rw [List.length_map, hlen]
      exact h1
    refine ⟨?_, by rw [List.length_map, hlen]⟩
    cases hl : f2.outputs.map Prod.snd with
    | nil => rw [hl] at h2; simp at h2
    | cons a t =>
      cases t with
      | nil => rw [hl] at h2; simp at h2
      | cons b2 t2 => exact hr.trans (outputsResultOf_pair hl)
  · intro args rs hvfalse hnd hargs hk hrs
    have hc := hcall hvfalse
    obtain ⟨args2, results2, outs2, hb2, hk2, hs2, hg⟩ := callFunction_decomp hc
    rw [hargs, Option.some.injEq] at hb2
    subst hb2
    rw [hk, Option.some.injEq] at hk2
    subst hk2
    have hstore : storeResults f.outputs (KernelResult.many rs) =
        some ((f.outputs.map Prod.fst).zip
          (((rs.drop 0).take f.outputs.length).map PyVal.arr)) := by
      unfold storeResults
      exact storeManyAux_nodup f.outputs rs 0 hnd (by omega)
    rw [hstore, Option.some.injEq] at hs2
    subst hs2
    subst hg
    simp only [List.drop_zero]
    rw [← hrs, List.take_length]
    have hlz : (f.outputs.map Prod.fst).length = (rs.map PyVal.arr).length := by
      simp [hrs]
    exact List.map_snd_zip _ _ (le_of_eq hlz.symm)

theorem c8_witness :
    outputsRead (fun _ => some (KernelResult.many [[7], [8]])) stochFacade =
      some ({ stochFacade with
                outputs := [("slowk", PyVal.arr [7]), ("slowd", PyVal.arr [8])],
                outputsValid := true },
            OutputsResult.many [PyVal.arr [7], PyVal.arr [8]], true) ∧
    (1 : Nat) < stochFacade.outputs.length ∧
    (stochFacade.outputs.map Prod.fst).Nodup ∧
    ({ stochFacade with
        outputs := [("slowk", PyVal.arr [7]), ("slowd", PyVal.arr [8])],
        outputsValid := true } : Facade).outputs.map Prod.snd =
      [[7], [8]].map PyVal.arr := by
  refine ⟨rfl, by decide, by decide, ?_⟩
  exact (c8_outputs_shape (fun _ => some (KernelResult.many [[7], [8]]))
      stochFacade _ _ _ rfl).2.2.2
    [PyVal.arr [2], PyVal.arr [3], PyVal.arr [4], PyVal.int 5, PyVal.int 3]
    [[7], [8]] rfl (by decide) rfl rfl rfl

end TalibAbstract
